import Mathlib

/-!
Shallow embedding of the blackjack environment (`blackjack.py` and
`blackjack_strategies.py`): deck management, hand evaluation, the round
state machine (deal, player turn, dealer turn, resolution) and the batch
experiment driver, together with specification-level definitions used to
state correctness of the hand evaluator and the outcome resolver.

Cards are modelled as the rank strings used by the source.  The mutable
deck is passed explicitly; `list.pop()` (drawing from the end) becomes a
function returning `Option` (`none` models the `IndexError` raised when
popping from an empty list).  `random.shuffle` is modelled by quantifying
over permutations of the freshly built deck, and the reshuffle performed
by `reset` between experiment rounds is modelled by an oracle giving the
shuffled deck for each round.
-/

namespace Blackjack

/-- The 13 rank symbols of the source, in source order. -/
def RANKS : List String := ["2", "3", "4", "5", "6", "7", "8", "9", "10", "J", "Q", "K", "A"]

/-- Python list repetition `l * n`: `n` copies of `l` concatenated; a zero or
negative `n` yields the empty list, as in Python. -/
def pyListMul (l : List α) (n : Int) : List α := (List.replicate n.toNat l).flatten

/-- `CARD_DECK = ['2', ..., 'A'] * 4` (module-level constant). -/
def CARD_DECK : List String := pyListMul RANKS 4

/-- Python `int(s)` on decimal digit strings (the only use sites pass the
numeric ranks `"2"`..`"10"`). -/
def pyInt (s : String) : Nat := s.data.foldl (fun n c => n * 10 + (c.toNat - 48)) 0

/-- `self.cards = CARD_DECK * self.n_card_decks`: the card list built by
`__init__` and by `reset` before shuffling. -/
def build_cards (n_card_decks : Int) : List String := pyListMul CARD_DECK n_card_decks

/-- `deal_card`: `self.cards.pop()` removes and returns the last element of
the card list; popping an empty list raises (modelled as `none`). -/
def deal_card (cards : List String) : Option (String × List String) :=
  match cards.getLast? with
  | some c => some (c, cards.dropLast)
  | none => none

/-- One iteration of the `for card in hand` loop of `calculate_hand_value`:
the accumulator is the pair `(value, aces)`. -/
def handStep (acc : Nat × Nat) (card : String) : Nat × Nat :=
  if card = "J" ∨ card = "Q" ∨ card = "K" then (acc.1 + 10, acc.2)
  else if card = "A" then (acc.1 + 11, acc.2 + 1)
  else (acc.1 + pyInt card, acc.2)

/-- The `while value > 21 and aces` adjustment loop of
`calculate_hand_value`: recursion on the remaining ace count. -/
def adjustAces (value : Nat) : Nat → Nat
  | 0 => value
  | aces + 1 => if 21 < value then adjustAces (value - 10) aces else value

/-- `BlackjackGame.calculate_hand_value`: sum card values (Ace initially 11),
then downgrade Aces from 11 to 1 while the total exceeds 21. -/
def calculate_hand_value (hand : List String) : Nat :=
  adjustAces (hand.foldl handStep (0, 0)).1 (hand.foldl handStep (0, 0)).2

/-- `BlackjackGame.determine_winner` on two hands. -/
def determine_winner (player_hand dealer_hand : List String) : String :=
  let player_value := calculate_hand_value player_hand
  let dealer_value := calculate_hand_value dealer_hand
  if player_value > 21 then "lose"
  else if dealer_value > 21 ∨ player_value > dealer_value then "win"
  else if player_value < dealer_value then "lose"
  else "draw"

/-- The player's turn loop of `play`: `while player_strategy(player_hand,
dealer_hand[0]): player_hand.append(self.deal_card())`.  Returns the final
player hand and the remaining deck; `none` if the deck runs out. -/
def playerTurn (strategy : List String → String → Bool) (cards player_hand : List String)
    (upcard : String) : Option (List String × List String) :=
  if strategy player_hand upcard then
    match h : deal_card cards with
    | some (c, rest) =>
      have : rest.length < cards.length := by
        unfold deal_card at h
        cases hc : cards.getLast? with
        | none => rw [hc] at h; exact absurd h (by simp)
        | some c0 =>
          rw [hc] at h
          cases cards with
          | nil => simp at hc
          | cons a l =>
            obtain ⟨rfl, rfl⟩ : c0 = c ∧ (a :: l).dropLast = rest := by
              constructor <;> simp_all
            simp [List.length_dropLast]
      playerTurn strategy rest (player_hand ++ [c]) upcard
    | none => none
  else some (player_hand, cards)
termination_by cards.length

/-- The dealer's turn loop of `play`: `while self.calculate_hand_value(
dealer_hand) < 17: dealer_hand.append(self.deal_card())`. -/
def dealerTurn (cards dealer_hand : List String) : Option (List String × List String) :=
  if calculate_hand_value dealer_hand < 17 then
    match h : deal_card cards with
    | some (c, rest) =>
      have : rest.length < cards.length := by
        unfold deal_card at h
        cases hc : cards.getLast? with
        | none => rw [hc] at h; exact absurd h (by simp)
        | some c0 =>
          rw [hc] at h
          cases cards with
          | nil => simp at hc
          | cons a l =>
            obtain ⟨rfl, rfl⟩ : c0 = c ∧ (a :: l).dropLast = rest := by
              constructor <;> simp_all
            simp [List.length_dropLast]
      dealerTurn rest (dealer_hand ++ [c])
    | none => none
  else some (dealer_hand, cards)
termination_by cards.length

/-- `BlackjackGame.play`: deal two cards to the player, two to the dealer
(in that order, drawing from the end of the card list), run the player's
turn with the dealer's first card as upcard, run the dealer's turn, and
resolve.  Returns the outcome string and the remaining deck. -/
def play (strategy : List String → String → Bool) (cards : List String) :
    Option (String × List String) := do
  let (p1, cards) ← deal_card cards
  let (p2, cards) ← deal_card cards
  let (d1, cards) ← deal_card cards
  let (d2, cards) ← deal_card cards
  let (player_hand, cards) ← playerTurn strategy cards [p1, p2] d1
  let (dealer_hand, cards) ← dealerTurn cards [d1, d2]
  some (determine_winner player_hand dealer_hand, cards)

/-- The prefix of `play` up to the end of the player's turn: the dealt
cards and the player loop, before any dealer action.  Returns the final
player hand, the dealer's two dealt cards, and the remaining deck. -/
def playUpToPlayer (strategy : List String → String → Bool) (cards : List String) :
    Option ((List String × String × String) × List String) := do
  let (p1, cards) ← deal_card cards
  let (p2, cards) ← deal_card cards
  let (d1, cards) ← deal_card cards
  let (d2, cards) ← deal_card cards
  let (player_hand, cards) ← playerTurn strategy cards [p1, p2] d1
  some ((player_hand, d1, d2), cards)

/-- The statistics dictionary `{'win': 0, 'lose': 0, 'draw': 0}`: exactly
the three outcome keys, each with a count. -/
structure Stats where
  win : Nat
  lose : Nat
  draw : Nat
deriving DecidableEq, Repr

/-- `results[result] += 1`: increment the entry of a known key; an unknown
key raises `KeyError` (modelled as `none`). -/
def bump (s : Stats) (r : String) : Option Stats :=
  if r = "win" then some { s with win := s.win + 1 }
  else if r = "lose" then some { s with lose := s.lose + 1 }
  else if r = "draw" then some { s with draw := s.draw + 1 }
  else none

/-- The `for _ in range(n_runs)` loop of `experiment`: play a round on the
current card list, tally the outcome, then `reset` — discard the remaining
cards and install the next freshly built shuffled deck (`shuffles i`). -/
def experimentLoop (strategy : List String → String → Bool) (shuffles : Nat → List String) :
    Nat → Nat → List String → Stats → Option Stats
  | 0, _, _, acc => some acc
  | n + 1, i, cards, acc =>
    match play strategy cards with
    | some (r, _) =>
      match bump acc r with
      | some acc2 => experimentLoop strategy shuffles n (i + 1) (shuffles i) acc2
      | none => none
    | none => none

/-- `BlackjackGame.experiment(n_runs, player_strategy)`: run `n_runs` rounds
from the current deck, resetting between rounds; `range` of a negative
count is empty, as in Python. -/
def experiment (strategy : List String → String → Bool) (cards : List String)
    (shuffles : Nat → List String) (n_runs : Int) : Option Stats :=
  experimentLoop strategy shuffles n_runs.toNat 0 cards { win := 0, lose := 0, draw := 0 }

/-- Drawing `k` cards in sequence from the deck: the list of drawn cards in
draw order, and the remaining deck. -/
def drawN : Nat → List String → Option (List String × List String)
  | 0, cards => some ([], cards)
  | k + 1, cards =>
    match deal_card cards with
    | some (c, rest) =>
      match drawN k rest with
      | some (drawn, rem) => some (c :: drawn, rem)
      | none => none
    | none => none

/-- Specification-level value of a non-Ace rank: `'2'..'10'` at their
integer value, `'J'`, `'Q'`, `'K'` at 10. -/
def specRankValue (c : String) : Nat :=
  if c = "J" ∨ c = "Q" ∨ c = "K" then 10 else pyInt c

/-- Specification-level minimal total: every Ace counted as 1. -/
def lowSum (hand : List String) : Nat :=
  (hand.map (fun c => if c = "A" then 1 else specRankValue c)).sum

/-- Number of Aces in a hand. -/
def acesCount (hand : List String) : Nat := hand.countP (fun c => c = "A")

/-- Specification-level: the totals achievable by assigning each Ace the
value 1 or 11 independently (non-Ace ranks at their fixed value). -/
def aceAssignTotals : List String → List Nat
  | [] => [0]
  | c :: rest =>
    if c = "A" then (aceAssignTotals rest).flatMap (fun t => [t + 1, t + 11])
    else (aceAssignTotals rest).map (fun t => t + specRankValue c)

/-- Specification-level hand value: the maximal achievable total ≤ 21, or
the minimal possible total (all Aces as 1) if every assignment exceeds 21. -/
def bestTotal (hand : List String) : Nat :=
  let ok := (aceAssignTotals hand).filter (fun t => t ≤ 21)
  if ok.isEmpty then lowSum hand else ok.foldr max 0

/-- Specification-level outcome resolution: the five ordered rules of the
spec, as a pure function of the two hand values. -/
def resolveRules (player_value dealer_value : Nat) : String :=
  if player_value > 21 then "lose"
  else if dealer_value > 21 then "win"
  else if player_value > dealer_value then "win"
  else if player_value < dealer_value then "lose"
  else "draw"

end Blackjack

namespace Strategies

/-- One iteration of the `for card in hand` loop of the module-level
`calculate_hand_value` of `blackjack_strategies.py` (the file carries its
own copy of the evaluator). -/
def handStep (acc : Nat × Nat) (card : String) : Nat × Nat :=
  if card = "J" ∨ card = "Q" ∨ card = "K" then (acc.1 + 10, acc.2)
  else if card = "A" then (acc.1 + 11, acc.2 + 1)
  else (acc.1 + Blackjack.pyInt card, acc.2)

/-- The `while value > 21 and aces` loop of the copy in
`blackjack_strategies.py`. -/
def adjustAces (value : Nat) : Nat → Nat
  | 0 => value
  | aces + 1 => if 21 < value then adjustAces (value - 10) aces else value

/-- Module-level `calculate_hand_value` of `blackjack_strategies.py`: the
same algorithm as the method in `blackjack.py`, duplicated in the source. -/
def calculate_hand_value (hand : List String) : Nat :=
  adjustAces (hand.foldl handStep (0, 0)).1 (hand.foldl handStep (0, 0)).2

/-- `basic(player_hand, dealer_upcard)`: hit iff the hand value is below 17;
the upcard is ignored. -/
def basic (player_hand : List String) (dealer_upcard : String) : Bool :=
  calculate_hand_value player_hand < 17

end Strategies

namespace Blackjack

theorem deal_card_concat (l : List String) (x : String) : deal_card (l ++ [x]) = some (x, l) := by
  simp [deal_card, List.getLast?_concat, List.dropLast_concat]

theorem deal_card_decomp {cards rest : List String} {c : String}
    (h : deal_card cards = some (c, rest)) : cards = rest ++ [c] := by
  unfold deal_card at h
  cases hg : cards.getLast? with
  | none => rw [hg] at h; cases h
  | some c0 =>
    rw [hg] at h
    simp only [Option.some.injEq, Prod.mk.injEq] at h
    have hne : cards ≠ [] := by
      intro he
      rw [he] at hg
      cases hg
    rw [List.getLast?_eq_getLast cards hne] at hg
    have h1 : cards.getLast hne = c0 := by
      simpa using hg
    rw [← h.2, ← h.1, ← h1]
    exact (List.dropLast_append_getLast hne).symm

theorem deal_card_length {cards rest : List String} {c : String}
    (h : deal_card cards = some (c, rest)) : rest.length + 1 = cards.length := by
  rw [deal_card_decomp h]
  simp

theorem dealerTurn_stand (cards hand : List String) (h : ¬ calculate_hand_value hand < 17) :
    dealerTurn cards hand = some (hand, cards) := by
  rw [dealerTurn]
  simp [h]

theorem dealerTurn_hit (cards hand : List String) (c : String) (rest : List String)
    (h : calculate_hand_value hand < 17) (hd : deal_card cards = some (c, rest)) :
    dealerTurn cards hand = dealerTurn rest (hand ++ [c]) := by
  rw [dealerTurn, if_pos h]
  split
  next c2 rest2 heq =>
    rw [hd] at heq
    simp only [Option.some.injEq, Prod.mk.injEq] at heq
    obtain ⟨rfl, rfl⟩ := heq
    rfl
  next heq => rw [hd] at heq; cases heq

theorem dealerTurn_exhaust (cards hand : List String)
    (h : calculate_hand_value hand < 17) (hd : deal_card cards = none) :
    dealerTurn cards hand = none := by
  rw [dealerTurn, if_pos h]
  split
  next c2 rest2 heq => rw [hd] at heq; cases heq
  next heq => rfl

theorem dealerTurn_post_aux : ∀ (n : Nat) (cards : List String), cards.length ≤ n →
    ∀ hand hand2 rest, dealerTurn cards hand = some (hand2, rest) →
      17 ≤ calculate_hand_value hand2 := by
  intro n
  induction n with
  | zero =>
    intro cards hlen hand hand2 rest heq
    have hc : cards = [] := List.length_eq_zero.mp (Nat.le_zero.mp hlen)
    subst hc
    by_cases h : calculate_hand_value hand < 17
    · rw [dealerTurn_exhaust [] hand h (by rfl)] at heq
      cases heq
    · rw [dealerTurn_stand _ _ h] at heq
      simp only [Option.some.injEq, Prod.mk.injEq] at heq
      obtain ⟨rfl, rfl⟩ := heq
      omega
  | succ n ih =>
    intro cards hlen hand hand2 rest heq
    by_cases h : calculate_hand_value hand < 17
    · cases hd : deal_card cards with
      | none =>
        rw [dealerTurn_exhaust _ _ h hd] at heq
        cases heq
      | some pr =>
        obtain ⟨c, rest2⟩ := pr
        rw [dealerTurn_hit _ _ _ _ h hd] at heq
        have hlen2 : rest2.length ≤ n := by
          have := deal_card_length hd
          omega
        exact ih rest2 hlen2 _ _ _ heq
    · rw [dealerTurn_stand _ _ h] at heq
      simp only [Option.some.injEq, Prod.mk.injEq] at heq
      obtain ⟨rfl, rfl⟩ := heq
      omega

theorem playerTurn_stand (strat : List String → String → Bool) (cards hand : List String)
    (up : String) (h : strat hand up = false) :
    playerTurn strat cards hand up = some (hand, cards) := by
  rw [playerTurn]
  simp [h]

theorem playerTurn_hit (strat : List String → String → Bool) (cards hand : List String)
    (up c : String) (rest : List String) (h : strat hand up = true)
    (hd : deal_card cards = some (c, rest)) :
    playerTurn strat cards hand up = playerTurn strat rest (hand ++ [c]) up := by
  rw [playerTurn, if_pos h]
  split
  next c2 rest2 heq =>
    rw [hd] at heq
    simp only [Option.some.injEq, Prod.mk.injEq] at heq
    obtain ⟨rfl, rfl⟩ := heq
    rfl
  next heq => rw [hd] at heq; cases heq

theorem playerTurn_exhaust (strat : List String → String → Bool) (cards hand : List String)
    (up : String) (h : strat hand up = true) (hd : deal_card cards = none) :
    playerTurn strat cards hand up = none := by
  rw [playerTurn, if_pos h]
  split
  next c2 rest2 heq => rw [hd] at heq; cases heq
  next heq => rfl

theorem handStep_eq (v a : Nat) (c : String) :
    handStep (v, a) c =
      (v + (if c = "A" then 1 else specRankValue c) + (if c = "A" then 10 else 0),
       a + (if c = "A" then 1 else 0)) := by
  by_cases hA : c = "A"
  · subst hA
    simp [handStep]
  · by_cases h1 : c = "J" ∨ c = "Q" ∨ c = "K"
    · have h2 : specRankValue c = 10 := by simp [specRankValue, h1]
      simp [handStep, h1, hA, h2]
    · simp [handStep, h1, hA, specRankValue]

theorem lowSum_cons (c : String) (rest : List String) :
    lowSum (c :: rest) = (if c = "A" then 1 else specRankValue c) + lowSum rest := by
  simp [lowSum]

theorem acesCount_cons (c : String) (rest : List String) :
    acesCount (c :: rest) = acesCount rest + (if c = "A" then 1 else 0) := by
  simp [acesCount, List.countP_cons]

theorem foldl_handStep : ∀ (hand : List String) (v a : Nat),
    hand.foldl handStep (v, a) =
      (v + lowSum hand + 10 * acesCount hand, a + acesCount hand) := by
  intro hand
  induction hand with
  | nil => intro v a; simp [lowSum, acesCount]
  | cons c rest ih =>
    intro v a
    rw [List.foldl_cons, handStep_eq, ih, lowSum_cons, acesCount_cons]
    by_cases hA : c = "A" <;> simp [hA, Prod.mk.injEq] <;> omega

theorem adjustAces_eq (low : Nat) : ∀ a : Nat,
    adjustAces (low + 10 * a) a =
      if 21 < low then low else low + 10 * min a ((21 - low) / 10) := by
  intro a
  induction a with
  | zero => simp [adjustAces]
  | succ a ih =>
    have step : adjustAces (low + 10 * (a + 1)) (a + 1) =
        if 21 < low + 10 * (a + 1) then adjustAces (low + 10 * (a + 1) - 10) a
        else low + 10 * (a + 1) := rfl
    by_cases hb : 21 < low + 10 * (a + 1)
    · rw [step, if_pos hb, show low + 10 * (a + 1) - 10 = low + 10 * a from by omega, ih]
      by_cases hl : 21 < low
      · simp [hl]
      · rw [if_neg hl, if_neg hl]
        have hqa : (21 - low) / 10 ≤ a := by
          have h2 := (Nat.div_lt_iff_lt_mul (show 0 < 10 from by norm_num)).mpr
            (show 21 - low < (a + 1) * 10 from by omega)
          omega
        omega
    · rw [step, if_neg hb]
      have hl : ¬ 21 < low := by omega
      rw [if_neg hl]
      have hle : a + 1 ≤ (21 - low) / 10 :=
        (Nat.le_div_iff_mul_le (show 0 < 10 from by norm_num)).mpr (by omega)
      omega

theorem calculate_hand_value_eq (hand : List String) :
    calculate_hand_value hand =
      if 21 < lowSum hand then lowSum hand
      else lowSum hand + 10 * min (acesCount hand) ((21 - lowSum hand) / 10) := by
  unfold calculate_hand_value
  rw [foldl_handStep]
  simpa using adjustAces_eq (lowSum hand) (acesCount hand)

theorem mem_aceAssignTotals : ∀ (hand : List String) (t : Nat),
    t ∈ aceAssignTotals hand ↔ ∃ s, s ≤ acesCount hand ∧ t = lowSum hand + 10 * s := by
  intro hand
  induction hand with
  | nil =>
    intro t
    constructor
    · intro h
      have ht : t = 0 := by simpa [aceAssignTotals] using h
      exact ⟨0, by simp, by simp [ht, lowSum]⟩
    · rintro ⟨s, hs, rfl⟩
      have hs0 : s = 0 := by simpa [acesCount] using hs
      simp [aceAssignTotals, hs0, lowSum]
  | cons c rest ih =>
    intro t
    by_cases hA : c = "A"
    · subst hA
      rw [show aceAssignTotals ("A" :: rest) =
            (aceAssignTotals rest).flatMap (fun t => [t + 1, t + 11]) from by
          simp [aceAssignTotals]]
      rw [show lowSum ("A" :: rest) = 1 + lowSum rest from by simp [lowSum_cons]]
      rw [show acesCount ("A" :: rest) = acesCount rest + 1 from by simp [acesCount_cons]]
      simp only [List.mem_flatMap]
      constructor
      · rintro ⟨t2, ht2, hmem⟩
        obtain ⟨s, hs, rfl⟩ := (ih t2).mp ht2
        rcases (by simpa using hmem : t = lowSum rest + 10 * s + 1 ∨
            t = lowSum rest + 10 * s + 11) with rfl | rfl
        · exact ⟨s, by omega, by omega⟩
        · exact ⟨s + 1, by omega, by omega⟩
      · rintro ⟨s, hs, rfl⟩
        by_cases hsa : s ≤ acesCount rest
        · refine ⟨lowSum rest + 10 * s, (ih _).mpr ⟨s, hsa, rfl⟩, ?_⟩
          simp only [List.mem_cons, List.mem_singleton]
          left
          omega
        · have hs2 : s = acesCount rest + 1 := by omega
          refine ⟨lowSum rest + 10 * acesCount rest,
            (ih _).mpr ⟨acesCount rest, le_refl _, rfl⟩, ?_⟩
          simp only [List.mem_cons, List.mem_singleton]
          right
          left
          omega
    · rw [show aceAssignTotals (c :: rest) =
            (aceAssignTotals rest).map (fun t => t + specRankValue c) from by
          simp [aceAssignTotals, hA]]
      rw [lowSum_cons, acesCount_cons]
      simp only [if_neg hA, List.mem_map]
      constructor
      · rintro ⟨t2, ht2, rfl⟩
        obtain ⟨s, hs, rfl⟩ := (ih t2).mp ht2
        exact ⟨s, by omega, by omega⟩
      · rintro ⟨s, hs, rfl⟩
        refine ⟨lowSum rest + 10 * s, (ih _).mpr ⟨s, by omega, rfl⟩, by omega⟩

theorem le_foldr_max {x : Nat} : ∀ l : List Nat, x ∈ l → x ≤ l.foldr max 0 := by
  intro l
  induction l with
  | nil => intro h; cases h
  | cons y l ih =>
    intro h
    rcases List.mem_cons.mp h with rfl | h2
    · exact le_max_left _ _
    · exact le_trans (ih h2) (le_max_right _ _)

theorem foldr_max_le {b : Nat} : ∀ l : List Nat, (∀ x ∈ l, x ≤ b) → l.foldr max 0 ≤ b := by
  intro l
  induction l with
  | nil => intro _; simp
  | cons y l ih =>
    intro h
    exact max_le (h y (by simp)) (ih (fun x hx => h x (List.mem_cons_of_mem _ hx)))

theorem bestTotal_eq (hand : List String) :
    bestTotal hand =
      if 21 < lowSum hand then lowSum hand
      else lowSum hand + 10 * min (acesCount hand) ((21 - lowSum hand) / 10) := by
  by_cases h : 21 < lowSum hand
  · have hemp : (aceAssignTotals hand).filter (fun t => decide (t ≤ 21)) = [] := by
      rw [List.filter_eq_nil_iff]
      intro t ht
      obtain ⟨s, hs, rfl⟩ := (mem_aceAssignTotals hand t).mp ht
      simp only [decide_eq_true_eq]
      omega
    rw [if_pos h]
    simp [bestTotal, hemp]
  · have h10 : 0 < 10 := by norm_num
    have hq1 : (21 - lowSum hand) / 10 * 10 ≤ 21 - lowSum hand := Nat.div_mul_le_self _ _
    have hmin_q : min (acesCount hand) ((21 - lowSum hand) / 10) ≤ (21 - lowSum hand) / 10 :=
      min_le_right _ _
    have hm_mem : lowSum hand + 10 * min (acesCount hand) ((21 - lowSum hand) / 10) ∈
        (aceAssignTotals hand).filter (fun t => decide (t ≤ 21)) := by
      rw [List.mem_filter]
      refine ⟨(mem_aceAssignTotals hand _).mpr ⟨_, min_le_left _ _, rfl⟩, ?_⟩
      simp only [decide_eq_true_eq]
      omega
    have hne : ((aceAssignTotals hand).filter (fun t => decide (t ≤ 21))).isEmpty = false := by
      rcases he : ((aceAssignTotals hand).filter (fun t => decide (t ≤ 21))).isEmpty with _ | _
      · rfl
      · rw [List.isEmpty_iff] at he
        rw [he] at hm_mem
        cases hm_mem
    have hub : ∀ x ∈ (aceAssignTotals hand).filter (fun t => decide (t ≤ 21)),
        x ≤ lowSum hand + 10 * min (acesCount hand) ((21 - lowSum hand) / 10) := by
      intro x hx
      rw [List.mem_filter] at hx
      obtain ⟨s, hs, rfl⟩ := (mem_aceAssignTotals hand _).mp hx.1
      have hx21 : lowSum hand + 10 * s ≤ 21 := by simpa using hx.2
      have hsq : s ≤ (21 - lowSum hand) / 10 :=
        (Nat.le_div_iff_mul_le h10).mpr (by omega)
      have : s ≤ min (acesCount hand) ((21 - lowSum hand) / 10) := le_min hs hsq
      omega
    rw [if_neg h]
    show (if ((aceAssignTotals hand).filter (fun t => decide (t ≤ 21))).isEmpty = true
        then lowSum hand
        else ((aceAssignTotals hand).filter (fun t => decide (t ≤ 21))).foldr max 0) = _
    rw [hne]
    simp only [Bool.false_eq_true, if_false]
    exact le_antisymm (foldr_max_le _ hub) (le_foldr_max _ hm_mem)

end Blackjack

open Blackjack

theorem adjustAces_copies : ∀ (a v : Nat), Strategies.adjustAces v a = Blackjack.adjustAces v a := by
  intro a
  induction a with
  | zero => intro v; rfl
  | succ a ih =>
    intro v
    show (if 21 < v then Strategies.adjustAces (v - 10) a else v) =
      (if 21 < v then Blackjack.adjustAces (v - 10) a else v)
    by_cases h : 21 < v
    · rw [if_pos h, if_pos h, ih]
    · rw [if_neg h, if_neg h]

theorem hand_value_copies : ∀ hand : List String,
    Strategies.calculate_hand_value hand = Blackjack.calculate_hand_value hand := by
  intro hand
  unfold Strategies.calculate_hand_value Blackjack.calculate_hand_value
  rw [show Strategies.handStep = Blackjack.handStep from rfl, adjustAces_copies]

/-- Claim C1: for every hand over the 13-rank alphabet, `calculate_hand_value`
returns the maximal total ≤ 21 achievable by assigning each Ace the value 1
or 11 (numeric ranks at their integer value, J, Q, K at 10), or the minimal
possible total (all Aces as 1) when every assignment exceeds 21; in
particular a hand of k Aces evaluates to 12 for k = 2, 13 for k = 3 and 21
for k = 11. -/
theorem C1_hand_value_correct :
    (∀ hand : List String, (∀ c ∈ hand, c ∈ RANKS) →
        calculate_hand_value hand = bestTotal hand) ∧
    calculate_hand_value (List.replicate 2 "A") = 12 ∧
    calculate_hand_value (List.replicate 3 "A") = 13 ∧
    calculate_hand_value (List.replicate 11 "A") = 21 := by
  refine ⟨fun hand _ => ?_, by decide, by decide, by decide⟩
  rw [calculate_hand_value_eq, bestTotal_eq]

theorem C1_hand_value_correct_witness :
    calculate_hand_value ["A", "6"] = bestTotal ["A", "6"] :=
  C1_hand_value_correct.1 ["A", "6"] (by decide)

/-- Claim C2: `determine_winner` implements the five ordered outcome rules
on the computed hand values (player bust → lose; else dealer bust → win;
else higher total wins; equal totals draw), with the quoted concrete value
pairs resolving to win, lose, win and draw respectively. -/
theorem C2_determine_winner_correct :
    (∀ player_hand dealer_hand : List String,
        determine_winner player_hand dealer_hand =
          resolveRules (calculate_hand_value player_hand)
            (calculate_hand_value dealer_hand)) ∧
    resolveRules 20 19 = "win" ∧ resolveRules 22 19 = "lose" ∧
    resolveRules 18 22 = "win" ∧ resolveRules 17 17 = "draw" := by
  refine ⟨fun ph dh => ?_, by decide, by decide, by decide, by decide⟩
  simp only [determine_winner, resolveRules]
  split_ifs <;> first | rfl | omega

/-- Claim C7: `deal_card` removes and returns the card at the current end of
the deck sequence (back-to-front consumption of the shuffled order), and on
an empty deck it fails (the source's `list.pop()` raises a catchable
`IndexError`, modelled as `none`) rather than succeeding. -/
theorem C7_deal_card_spec :
    deal_card ([] : List String) = none ∧
    ∀ (cards : List String) (h : cards ≠ []),
      deal_card cards = some (cards.getLast h, cards.dropLast) := by
  refine ⟨rfl, fun cards h => ?_⟩
  unfold deal_card
  rw [List.getLast?_eq_getLast cards h]

theorem C7_deal_card_spec_witness :
    deal_card ["2", "3"] = some ((["2", "3"] : List String).getLast (by decide),
      (["2", "3"] : List String).dropLast) :=
  C7_deal_card_spec.2 ["2", "3"] (by decide)

/-- Claim C9 counterexample: constructing with `n_card_decks = 0` does not
fail fast — it silently produces an empty deck — and `experiment` with
`n_runs = -1` does not fail — it returns the all-zero statistics. -/
theorem C9_counterexample :
    build_cards 0 = [] ∧
    experiment (fun _ _ => false) [] (fun _ => []) (-1) =
      some { win := 0, lose := 0, draw := 0 } :=
  ⟨rfl, rfl⟩

/-- Claim C9 as amended: constructing a game with `n_card_decks ≤ 0` does
not raise; it produces an empty (nonsensical) deck, and invoking
`experiment` with `n_runs < 0` does not raise; it returns the zero
statistics, because Python's `range` of a negative count is empty. -/
theorem C9_no_fail_fast :
    (∀ n : Int, n ≤ 0 → build_cards n = []) ∧
    (∀ (strat : List String → String → Bool) (cards : List String)
        (shuffles : Nat → List String) (n : Int), n < 0 →
        experiment strat cards shuffles n = some { win := 0, lose := 0, draw := 0 }) := by
  constructor
  · intro n hn
    simp [build_cards, pyListMul, Int.toNat_of_nonpos hn]
  · intro strat cards shuffles n hn
    unfold experiment
    rw [Int.toNat_of_nonpos (by omega)]
    rfl

theorem C9_no_fail_fast_witness : build_cards (-2) = [] :=
  C9_no_fail_fast.1 (-2) (by decide)

/-- Claim C10: the module-level `calculate_hand_value` in
`blackjack_strategies.py` agrees extensionally with the method
`BlackjackGame.calculate_hand_value` in `blackjack.py` (the source carries
two verbatim copies of the evaluator), so the basic strategy's hit/stand
decision is exactly "engine hand value below 17". -/
theorem C10_evaluator_copies_agree :
    (∀ hand : List String,
        Strategies.calculate_hand_value hand = Blackjack.calculate_hand_value hand) ∧
    (∀ (hand : List String) (upcard : String),
        Strategies.basic hand upcard = decide (Blackjack.calculate_hand_value hand < 17)) := by
  refine ⟨hand_value_copies, fun hand up => ?_⟩
  show decide (Strategies.calculate_hand_value hand < 17) = _
  rw [hand_value_copies]

/-- Claim C3: in the dealer turn of `play`, the dealer draws a card whenever
the dealer hand's value is below 17, never draws once the value is at least
17 (standing on soft 17, e.g. the hand A-6), and whenever the loop returns
normally the final dealer hand's value is at least 17. -/
theorem C3_dealer_loop_spec :
    (∀ (cards hand : List String) (c : String) (rest : List String),
        calculate_hand_value hand < 17 → deal_card cards = some (c, rest) →
        dealerTurn cards hand = dealerTurn rest (hand ++ [c])) ∧
    (∀ cards hand : List String, 17 ≤ calculate_hand_value hand →
        dealerTurn cards hand = some (hand, cards)) ∧
    (∀ cards : List String, dealerTurn cards ["A", "6"] = some (["A", "6"], cards)) ∧
    (∀ cards hand hand2 rest : List String, dealerTurn cards hand = some (hand2, rest) →
        17 ≤ calculate_hand_value hand2) :=
  ⟨fun cards hand c rest h hd => dealerTurn_hit cards hand c rest h hd,
   fun cards hand h => dealerTurn_stand cards hand (by omega),
   fun cards => dealerTurn_stand cards ["A", "6"] (by decide),
   fun cards hand hand2 rest heq =>
     dealerTurn_post_aux cards.length cards le_rfl hand hand2 rest heq⟩

theorem C3_dealer_loop_spec_witness :
    dealerTurn ["5"] ["10", "9"] = some (["10", "9"], ["5"]) :=
  C3_dealer_loop_spec.2.1 ["5"] ["10", "9"] (by decide)

/-- Claim C5: the player-turn loop of `play` terminates only via the
strategy's decision: on `false` it stands with the hand unchanged, on
`true` it draws one card, appends it and re-invokes the strategy, with no
bust check — concretely, an always-hit strategy holding the busted hand
K-Q-5 (value 25) keeps drawing until the deck is exhausted. -/
theorem C5_player_loop_spec :
    (∀ (strat : List String → String → Bool) (cards hand : List String) (up : String),
        strat hand up = false → playerTurn strat cards hand up = some (hand, cards)) ∧
    (∀ (strat : List String → String → Bool) (cards hand : List String) (up c : String)
        (rest : List String), strat hand up = true → deal_card cards = some (c, rest) →
        playerTurn strat cards hand up = playerTurn strat rest (hand ++ [c]) up) ∧
    21 < calculate_hand_value ["K", "Q", "5"] ∧
    playerTurn (fun _ _ => true) ["3", "4"] ["K", "Q", "5"] "2" = none := by
  refine ⟨playerTurn_stand, playerTurn_hit, by decide, ?_⟩
  rw [playerTurn_hit _ _ _ _ _ _ rfl
    (show deal_card ["3", "4"] = some ("4", ["3"]) from rfl)]
  rw [playerTurn_hit _ _ _ _ _ _ rfl
    (show deal_card ["3"] = some ("3", ([] : List String)) from rfl)]
  exact playerTurn_exhaust _ _ _ _ rfl rfl

theorem C5_player_loop_spec_witness :
    playerTurn (fun _ _ => false) ["2"] ["K", "Q", "5"] "3" = some (["K", "Q", "5"], ["2"]) :=
  C5_player_loop_spec.1 (fun _ _ => false) ["2"] ["K", "Q", "5"] "3" rfl

theorem bump_sum {acc acc2 : Stats} {r : String} (h : bump acc r = some acc2) :
    acc2.win + acc2.lose + acc2.draw = acc.win + acc.lose + acc.draw + 1 := by
  unfold bump at h
  split_ifs at h <;> cases h <;> dsimp only <;> omega

theorem determine_winner_mem (ph dh : List String) :
    determine_winner ph dh = "win" ∨ determine_winner ph dh = "lose" ∨
      determine_winner ph dh = "draw" := by
  simp only [determine_winner]
  split_ifs <;> simp

theorem play_result_mem {strat : List String → String → Bool} {cards rest : List String}
    {r : String} (h : play strat cards = some (r, rest)) :
    r = "win" ∨ r = "lose" ∨ r = "draw" := by
  simp only [play, Option.bind_eq_bind, Option.bind_eq_some] at h
  obtain ⟨⟨p1, c1⟩, -, ⟨p2, c2⟩, -, ⟨d1, c3⟩, -, ⟨d2, c4⟩, -, ⟨ph, c5⟩, -, ⟨dh, c6⟩, -, hfin⟩ := h
  simp only [Option.some.injEq, Prod.mk.injEq] at hfin
  rw [← hfin.1]
  exact determine_winner_mem ph dh

theorem experimentLoop_sum (strat : List String → String → Bool)
    (shuffles : Nat → List String) : ∀ (n i : Nat) (cards : List String) (acc s : Stats),
    experimentLoop strat shuffles n i cards acc = some s →
    s.win + s.lose + s.draw = acc.win + acc.lose + acc.draw + n := by
  intro n
  induction n with
  | zero =>
    intro i cards acc s h
    simp only [experimentLoop, Option.some.injEq] at h
    subst h
    omega
  | succ n ih =>
    intro i cards acc s h
    cases hp : play strat cards with
    | none =>
      simp only [experimentLoop, hp] at h
      cases h
    | some pr =>
      obtain ⟨r, rest⟩ := pr
      cases hb : bump acc r with
      | none =>
        simp only [experimentLoop, hp, hb] at h
        cases h
      | some acc2 =>
        simp only [experimentLoop, hp, hb] at h
        have hsum := ih (i + 1) (shuffles i) acc2 s h
        have hb2 := bump_sum hb
        omega

/-- Claim C4: for every nonnegative run count, strategy, initial deck and
reshuffle oracle under which all rounds complete, `experiment` returns the
statistics mapping with exactly the keys win, lose, draw (each 0 when never
observed, as with zero runs) whose counts sum exactly to the run count; and
between consecutive rounds the deck is fully rebuilt — round i+1 runs on
the freshly reshuffled deck, not on the cards left over from round i. -/
theorem C4_experiment_spec :
    (∀ (strat : List String → String → Bool) (cards : List String)
        (shuffles : Nat → List String) (n : Int) (s : Stats), 0 ≤ n →
        experiment strat cards shuffles n = some s →
        (s.win : Int) + s.lose + s.draw = n) ∧
    (∀ (strat : List String → String → Bool) (cards : List String)
        (shuffles : Nat → List String),
        experiment strat cards shuffles 0 = some { win := 0, lose := 0, draw := 0 }) ∧
    (∀ (strat : List String → String → Bool) (shuffles : Nat → List String)
        (n i : Nat) (cards : List String) (acc acc2 : Stats) (r : String)
        (rest : List String),
        play strat cards = some (r, rest) → bump acc r = some acc2 →
        experimentLoop strat shuffles (n + 1) i cards acc =
          experimentLoop strat shuffles n (i + 1) (shuffles i) acc2) := by
  refine ⟨?_, fun strat cards shuffles => rfl, ?_⟩
  · intro strat cards shuffles n s hn h
    unfold experiment at h
    have hsum := experimentLoop_sum strat shuffles n.toNat 0 cards _ s h
    simp only at hsum
    omega
  · intro strat shuffles n i cards acc acc2 r rest hp hb
    simp only [experimentLoop, hp, hb]

theorem build_cards_length (n : Nat) : (build_cards (n : Int)).length = 52 * n := by
  unfold build_cards pyListMul
  rw [List.length_flatten, List.map_replicate, List.sum_replicate, smul_eq_mul]
  have h1 : CARD_DECK.length = 52 := by decide
  have h2 : ((n : Int)).toNat = n := by simp
  rw [h1, h2, Nat.mul_comm]

theorem drawN_perm : ∀ (k : Nat) (deck drawn rem : List String),
    drawN k deck = some (drawn, rem) → (drawn ++ rem).Perm deck := by
  intro k
  induction k with
  | zero =>
    intro deck drawn rem h
    simp only [drawN, Option.some.injEq, Prod.mk.injEq] at h
    obtain ⟨rfl, rfl⟩ := h
    simp
  | succ k ih =>
    intro deck drawn rem h
    cases hd : deal_card deck with
    | none =>
      simp only [drawN, hd] at h
      cases h
    | some pr =>
      obtain ⟨c, rest⟩ := pr
      cases hk : drawN k rest with
      | none =>
        simp only [drawN, hd, hk] at h
        cases h
      | some pr2 =>
        obtain ⟨drawn2, rem2⟩ := pr2
        simp only [drawN, hd, hk, Option.some.injEq, Prod.mk.injEq] at h
        obtain ⟨rfl, rfl⟩ := h
        rw [deal_card_decomp hd]
        exact List.Perm.trans (List.Perm.cons c (ih rest drawn2 rem2 hk))
          ((List.perm_append_singleton c rest).symm)

/-- Claim C8: a freshly built and shuffled deck of n ≥ 1 standard decks has
exactly 52·n cards; every successful `deal_card` shrinks the deck by
exactly one; and after any number of draws from a fresh deck, the drawn
cards together with the remaining deck form a permutation (equal multiset)
of the fresh deck. -/
theorem C8_deck_invariant :
    (∀ n : Nat, 1 ≤ n → ∀ deck : List String, deck.Perm (build_cards (n : Int)) →
        deck.length = 52 * n) ∧
    (∀ (cards : List String) (c : String) (rest : List String),
        deal_card cards = some (c, rest) → rest.length + 1 = cards.length) ∧
    (∀ (n k : Nat) (deck drawn rem : List String), deck.Perm (build_cards (n : Int)) →
        drawN k deck = some (drawn, rem) → (drawn ++ rem).Perm (build_cards (n : Int))) := by
  refine ⟨?_, fun cards c rest h => deal_card_length h, ?_⟩
  · intro n hn deck hp
    rw [hp.length_eq, build_cards_length]
  · intro n k deck drawn rem hp hdr
    exact (drawN_perm k deck drawn rem hdr).trans hp

theorem C8_deck_invariant_witness : (build_cards ((1 : Nat) : Int)).length = 52 * 1 :=
  C8_deck_invariant.1 1 (le_refl 1) (build_cards ((1 : Nat) : Int)) (List.Perm.refl _)

theorem playUpToPlayer_concat (strat : List String → String → Bool)
    (rest : List String) (p1 p2 d1 d2 : String) :
    playUpToPlayer strat (rest ++ [d2, d1, p2, p1]) =
      (playerTurn strat rest [p1, p2] d1).map (fun z => ((z.1, d1, d2), z.2)) := by
  have e1 : rest ++ [d2, d1, p2, p1] = (rest ++ [d2, d1, p2]) ++ [p1] := by simp
  have e2 : rest ++ [d2, d1, p2] = (rest ++ [d2, d1]) ++ [p2] := by simp
  have e3 : rest ++ [d2, d1] = (rest ++ [d2]) ++ [d1] := by simp
  unfold playUpToPlayer
  rw [e1, deal_card_concat]
  simp only [Option.bind_eq_bind, Option.some_bind]
  rw [e2, deal_card_concat]
  simp only [Option.some_bind]
  rw [e3, deal_card_concat]
  simp only [Option.some_bind]
  rw [deal_card_concat]
  simp only [Option.some_bind]
  cases hpt : playerTurn strat rest [p1, p2] d1 with
  | none => rfl
  | some z =>
    obtain ⟨zh, zc⟩ := z
    rfl

theorem play_decomp (strat : List String → String → Bool) (cards : List String) :
    play strat cards = (playUpToPlayer strat cards).bind (fun x =>
      (dealerTurn x.2 [x.1.2.1, x.1.2.2]).bind (fun y =>
        some (determine_winner x.1.1 y.1, y.2))) := by
  unfold play playUpToPlayer
  cases deal_card cards with
  | none => rfl
  | some x1 =>
    obtain ⟨p1, c1⟩ := x1
    simp only [Option.bind_eq_bind, Option.some_bind]
    cases deal_card c1 with
    | none => rfl
    | some x2 =>
      obtain ⟨p2, c2⟩ := x2
      simp only [Option.some_bind]
      cases deal_card c2 with
      | none => rfl
      | some x3 =>
        obtain ⟨d1, c3⟩ := x3
        simp only [Option.some_bind]
        cases deal_card c3 with
        | none => rfl
        | some x4 =>
          obtain ⟨d2, c4⟩ := x4
          simp only [Option.some_bind]
          cases playerTurn strat c4 [p1, p2] d1 with
          | none => rfl
          | some x5 =>
            obtain ⟨ph, c5⟩ := x5
            simp only [Option.some_bind]

/-- Claim C6: `play` factors through the deal-and-player-turn phase, in
which the strategy is consulted with the player hand and the dealer's first
dealt card only; consequently two runs that differ solely in the dealer's
second dealt card (same shuffled remainder, same strategy) produce the same
final player hand and the same remaining deck after the player turn. -/
theorem C6_upcard_only :
    (∀ (strat : List String → String → Bool) (cards : List String),
        play strat cards = (playUpToPlayer strat cards).bind (fun x =>
          (dealerTurn x.2 [x.1.2.1, x.1.2.2]).bind (fun y =>
            some (determine_winner x.1.1 y.1, y.2)))) ∧
    (∀ (strat : List String → String → Bool) (rest : List String)
        (p1 p2 d1 d2 d2' : String),
        (playUpToPlayer strat (rest ++ [d2, d1, p2, p1])).map (fun x => (x.1.1, x.2)) =
          (playUpToPlayer strat (rest ++ [d2', d1, p2, p1])).map (fun x => (x.1.1, x.2))) := by
  refine ⟨play_decomp, ?_⟩
  intro strat rest p1 p2 d1 d2 d2'
  rw [playUpToPlayer_concat, playUpToPlayer_concat]
  cases playerTurn strat rest [p1, p2] d1 with
  | none => rfl
  | some z =>
    obtain ⟨zh, zc⟩ := z
    rfl

theorem C4_experiment_spec_witness :
    (0 : Int) ≤ 0 ∧
      (({ win := 0, lose := 0, draw := 0 } : Stats).win : Int) +
        ({ win := 0, lose := 0, draw := 0 } : Stats).lose +
        ({ win := 0, lose := 0, draw := 0 } : Stats).draw = 0 :=
  ⟨le_refl 0,
   C4_experiment_spec.1 (fun _ _ => false) [] (fun _ => []) 0
     { win := 0, lose := 0, draw := 0 } (le_refl 0) rfl⟩
